import Mathlib

/-!
Verification of the composite-rating report compiler and the side-effect
ratings of the `ratings` repository.

Strings of the Python source are modelled as `List Char`.  The regular
expression passes of `prep_composite_rating` are modelled by a generic
left-to-right scan-and-replace function `subst` (mirroring `re.sub`), and
the `re.findall(r'(rat[0-9]*).', s)` scan of `get_tables` is modelled by
`findRat`, including the greedy-with-backtracking behaviour of the final
unescaped dot (which matches any character except a newline and can
consume the last digit of the run when the run sits at the end of the
input) and the non-overlapping continuation of the scan.
-/

set_option maxRecDepth 20000

/-- The literal opening-brace character. -/
def lbrace : Char := '\x7b'

/-- The literal closing-brace character. -/
def rbrace : Char := '\x7d'

/-- Decimal digit test, as the regex character class 0-9. -/
def isDig (c : Char) : Bool := 48 ≤ c.toNat && c.toNat ≤ 57

/-- `startsSeq p s` is true when `p` is an initial run of `s`. -/
def startsSeq : List Char → List Char → Bool
  | [], _ => true
  | _ :: _, [] => false
  | p :: ps, s :: ss => p == s && startsSeq ps ss

/-- `containsSeq p s`: `p` occurs contiguously somewhere in `s`
(Python's `p in s`). -/
def containsSeq (p s : List Char) : Bool :=
  match s with
  | [] => startsSeq p []
  | _ :: rest => startsSeq p s || containsSeq p rest

/-- Number of positions of `s` at which `p` occurs. -/
def countSeq (p s : List Char) : Nat :=
  match s with
  | [] => if startsSeq p [] then 1 else 0
  | _ :: rest => (if startsSeq p s then 1 else 0) + countSeq p rest

/-- Lexicographic comparison of code points: Python's `<=` on `str`. -/
def strLe : List Char → List Char → Bool
  | [], _ => true
  | _ :: _, [] => false
  | a :: as, b :: bs =>
    if a.toNat < b.toNat then true
    else if b.toNat < a.toNat then false
    else strLe as bs

/-- `strLe` as a relation, used for sorting table names. -/
def strLeP (a b : List Char) : Prop := strLe a b = true

instance : DecidableRel strLeP :=
  fun a b => inferInstanceAs (Decidable (strLe a b = true))

instance : IsTotal (List Char) strLeP := by
  refine ⟨?_⟩
  intro a
  induction a with
  | nil => intro b; left; rfl
  | cons x xs ih =>
    intro b
    cases b with
    | nil => right; rfl
    | cons y ys =>
      rcases Nat.lt_trichotomy x.toNat y.toNat with h | h | h
      · left; simp [strLeP, strLe, h]
      · rcases ih ys with h2 | h2
        · left
          simp only [strLeP, strLe, h, Nat.lt_irrefl, if_false]
          exact h2
        · right
          simp only [strLeP, strLe, h, Nat.lt_irrefl, if_false]
          exact h2
      · right; simp [strLeP, strLe, h]

instance : IsTrans (List Char) strLeP := by
  refine ⟨?_⟩
  intro a
  induction a with
  | nil => intro b c _ _; rfl
  | cons x xs ih =>
    intro b c hab hbc
    cases b with
    | nil => exact absurd hab (by simp [strLeP, strLe])
    | cons y ys =>
      cases c with
      | nil => exact absurd hbc (by simp [strLeP, strLe])
      | cons z zs =>
        by_cases h1 : x.toNat < y.toNat
        · by_cases h2 : y.toNat < z.toNat
          · have h3 : x.toNat < z.toNat := h1.trans h2
            simp [strLeP, strLe, h3]
          · by_cases h3 : z.toNat < y.toNat
            · exact absurd hbc (by simp [strLeP, strLe, h2, h3])
            · have h4 : x.toNat < z.toNat := by omega
              simp [strLeP, strLe, h4]
        · by_cases h4 : y.toNat < x.toNat
          · exact absurd hab (by simp [strLeP, strLe, h1, h4])
          · have hab' : strLe xs ys = true := by
              simpa [strLeP, strLe, h1, h4] using hab
            by_cases h2 : y.toNat < z.toNat
            · have h5 : x.toNat < z.toNat := by omega
              simp [strLeP, strLe, h5]
            · by_cases h3 : z.toNat < y.toNat
              · exact absurd hbc (by simp [strLeP, strLe, h2, h3])
              · have hbc' : strLe ys zs = true := by
                  simpa [strLeP, strLe, h2, h3] using hbc
                have h5 : ¬x.toNat < z.toNat := by omega
                have h6 : ¬z.toNat < x.toNat := by omega
                simp only [strLeP, strLe, h5, h6, if_false]
                exact ih ys zs hab' hbc'

/-- Python's `sorted` on a list of strings. -/
def pysort (l : List (List Char)) : List (List Char) :=
  List.insertionSort strLeP l

/-- Python's `sorted(list(set(l)))`. -/
def sortedDedup (l : List (List Char)) : List (List Char) :=
  pysort l.dedup

/-- Fuelled scan-and-replace engine shared by the three `re.sub` passes of
`prep_composite_rating`.  At each position: if the current character is the
tag character and `body` matches the remainder, the match is replaced by
`rep` of the captured group and the scan continues after the match
(non-overlapping); otherwise the character is copied and the scan advances
by one.  The fuel is always instantiated with the length of the input. -/
def subF (tag : Char) (body : List Char → Option (List Char × List Char))
    (rep : List Char → List Char) : Nat → List Char → List Char
  | 0, s => s
  | _ + 1, [] => []
  | fuel + 1, c :: cs =>
    if c = tag then
      match body cs with
      | some (f, a) => rep f ++ subF tag body rep fuel a
      | none => c :: subF tag body rep fuel cs
    else c :: subF tag body rep fuel cs

/-- `re.sub` with the given tag, body pattern and replacement. -/
def subst (tag : Char) (body : List Char → Option (List Char × List Char))
    (rep : List Char → List Char) (s : List Char) : List Char :=
  subF tag body rep s.length s

/-- Body of the patterns `c\x7b([^\x7d]*)\x7d` and `h\x7b([^\x7d]*)\x7d`
after their tag: an opening brace, a greedy run of non-closing-brace
characters (the group), and a closing brace.  Returns the group and the
rest of the input after the match. -/
def braceBody (cs : List Char) : Option (List Char × List Char) :=
  match cs with
  | [] => none
  | b :: rest =>
    if b = lbrace then
      let f := rest.takeWhile (fun c => c != rbrace)
      match rest.drop f.length with
      | _ :: a => some (f, a)
      | [] => none
    else none

/-- Body of the pattern `r\x7b([0-9]*)\x7d` after its tag: an opening
brace, a greedy digit run (the group), and a closing brace. -/
def ratingBody (cs : List Char) : Option (List Char × List Char) :=
  match cs with
  | [] => none
  | b :: rest =>
    if b = lbrace then
      let d := rest.takeWhile isDig
      match rest.drop d.length with
      | x :: a => if x = rbrace then some (d, a) else none
      | [] => none
    else none

/-- Replacement of the candidate-field pass. -/
def crep (f : List Char) : List Char := "pdm_candidates.".toList ++ f

/-- Replacement of the header-field pass. -/
def hrep (f : List Char) : List Char := "headers.".toList ++ f

/-- Replacement of the rating pass. -/
def rrep (d : List Char) : List Char := "rat".toList ++ d ++ ".value".toList

/-- `prep_composite_rating` of `composite_rating_report.py`: the three
`re.sub` passes, candidate fields first, then header fields, then
ratings. -/
def prep_composite_rating (s : List Char) : List Char :=
  subst 'r' ratingBody rrep (subst 'h' braceBody hrep (subst 'c' braceBody crep s))

/-- One attempted match of `re.findall(r'(rat[0-9]*).', s)` after an
initial `r`: the literals `a`, `t`, a greedy digit run, then the unescaped
dot, which must consume one character that is not a newline; when the run
ends the input (or is followed by a newline) the engine backtracks and the
dot consumes the last digit instead.  Returns the captured group and the
rest of the input after the whole match. -/
def ratFindBody (cs : List Char) : Option (List Char × List Char) :=
  match cs with
  | 'a' :: 't' :: rest =>
    let d := rest.takeWhile isDig
    match rest.drop d.length with
    | x :: xs =>
      if x ≠ '\n' then some ('r' :: 'a' :: 't' :: d, xs)
      else if d.isEmpty then none
      else some ('r' :: 'a' :: 't' :: d.dropLast, x :: xs)
    | [] => if d.isEmpty then none else some ('r' :: 'a' :: 't' :: d.dropLast, [])
  | _ => none

/-- Fuelled scan of `re.findall(r'(rat[0-9]*).', s)`: collects the
captured groups of the non-overlapping left-to-right matches. -/
def findRatF : Nat → List Char → List (List Char)
  | 0, _ => []
  | _ + 1, [] => []
  | fuel + 1, c :: cs =>
    if c = 'r' then
      match ratFindBody cs with
      | some (g, a) => g :: findRatF fuel a
      | none => findRatF fuel cs
    else findRatF fuel cs

/-- All groups found by `re.findall(r'(rat[0-9]*).', s)`. -/
def findRat (s : List Char) : List (List Char) := findRatF s.length s

/-- `get_tables` of `composite_rating_report.py`: the candidate table when
the dotted candidate prefix occurs, the header table when the dotted
header prefix occurs, one entry per rating-alias group found by the
regex scan; the result is `sorted(list(set(...)))`. -/
def get_tables (s : List Char) : List (List Char) :=
  sortedDedup
    ((if containsSeq "pdm_candidates.".toList s then ["pdm_candidates".toList] else []) ++
      (if containsSeq "headers.".toList s then ["headers".toList] else []) ++
      findRat s)

/-- Decimal rendering of a number, Python's `str` / `%d`. -/
def natStr (n : Nat) : List Char := Nat.toDigits 10 n

/-- Python's `','.join(str(cl) for cl in cls)`. -/
def joinCommaNat : List Nat → List Char
  | [] => []
  | [n] => natStr n
  | n :: rest => natStr n ++ ',' :: joinCommaNat rest

/-- The header join clause emitted by `build_query` (lines 120-121). -/
def hdrJoin : List Char :=
  " LEFT JOIN headers ON ".toList ++ " headers.header_id = pdm_candidates.header_id ".toList

/-- The classification join clause emitted by `build_query`
(lines 124-127); `pid` models the externally configured value returned by
`rating_utils.get_default_pdm_class_type_id()`. -/
def clsJoin (pid : Nat) : List Char :=
  " LEFT JOIN pdm_classifications ON ".toList ++
    " pdm_candidates.pdm_cand_id = pdm_classifications.pdm_cand_id AND".toList ++
    " pdm_classifications.pdm_class_type_id = ".toList ++ natStr pid ++ " AND ".toList ++
    " pdm_classifications.who = 'PL' ".toList

/-- The rating-alias join clause emitted by `build_query` (lines 129-131):
the alias is joined on candidate id and on `rating_id` equal to the text
of the alias after its first three characters. -/
def ratJoin (t : List Char) : List Char :=
  " LEFT JOIN ratings AS ".toList ++ t ++ " ON ".toList ++
    " ".toList ++ t ++ ".pdm_cand_id = pdm_candidates.pdm_cand_id AND ".toList ++
    " ".toList ++ t ++ ".rating_id = ".toList ++ t.drop 3 ++ " ".toList

/-- The join clause emitted for one table of the table list; the candidate
table itself matches no branch (it is the FROM table) and emits nothing. -/
def joinClause (pid : Nat) (t : List Char) : List Char :=
  if t = "headers".toList then hdrJoin
  else if t = "pdm_classifications".toList then clsJoin pid
  else if startsSeq "rat".toList t then ratJoin t
  else []

/-- The table list assembled by `build_query` (lines 102-115): the sorted
deduplicated union of the tables of the where clause and of the prepped
string, with the header table forced in when `no_test` is set and the
classification table forced in when `classifications` is non-empty
(each re-sorted as in the source). -/
def query_tables (expr w : List Char) (noTest : Bool) (cls : List Nat) : List (List Char) :=
  let t0 := sortedDedup (get_tables w ++ get_tables expr)
  let t1 := if noTest = true ∧ "headers".toList ∉ t0
    then pysort (t0 ++ ["headers".toList]) else t0
  if cls ≠ [] ∧ "pdm_classifications".toList ∉ t1
    then pysort (t1 ++ ["pdm_classifications".toList]) else t1

/-- The SELECT/FROM prefix of the query (line 117). -/
def selectFrom (expr : List Char) : List Char :=
  "SELECT ".toList ++ expr ++ " AS composite_rating FROM pdm_candidates ".toList

/-- The predicate appended when `no_test` is set (line 136). -/
def srcNamePred : List Char := " AND headers.source_name LIKE 'G%' ".toList

/-- The predicate appended when classifications are given (lines 138-139). -/
def clsPred (cls : List Nat) : List Char :=
  " AND pdm_classifications.rank IN (".toList ++ joinCommaNat cls ++ ") ".toList

/-- The unconditional final clause (line 140). -/
def havingClause : List Char := " HAVING composite_rating IS NOT NULL".toList

/-- The WHERE section and everything after it (lines 133-140). -/
def wherePart (w : List Char) (noTest : Bool) (cls : List Nat) : List Char :=
  "WHERE ".toList ++ w ++ " ".toList ++
    (if noTest then srcNamePred else []) ++
    (if cls ≠ [] then clsPred cls else []) ++ havingClause

/-- `build_query` of `composite_rating_report.py`. -/
def build_query (expr w : List Char) (noTest : Bool) (cls : List Nat) (pid : Nat) : List Char :=
  selectFrom expr ++ ((query_tables expr w noTest cls).map (joinClause pid)).flatten ++
    wherePart w noTest cls

/-- The four classification buckets of `produce_report`, in source order,
with their label stems. -/
def reportBuckets : List (List Nat × List Char) :=
  [([], "All Cands".toList), ([4, 5], "RFI/Noise".toList),
    ([6, 7], "Known/Harmonic".toList), ([1, 2, 3], "Class 1/2/3".toList)]

/-- One bucket of `produce_report`: build the query, fetch its values
through the data-store collaborator `fetch`, and render a labelled series
(label stem plus the literal count in parentheses) unless the bucket is
empty, in which case the series is skipped. -/
def reportStep {α : Type} (fetch : List Char → List α) (p w : List Char) (pid : Nat)
    (b : List Nat × List Char) : Option (List Char × List α) :=
  if (fetch (build_query p w false b.1 pid)).length ≠ 0 then
    some (b.2 ++ " (".toList ++ natStr (fetch (build_query p w false b.1 pid)).length ++
      ")".toList, fetch (build_query p w false b.1 pid))
  else none

/-- `produce_report` of `composite_rating_report.py`, modelled as the list
of labelled series handed to the histogram renderer, in source order. -/
def produce_report {α : Type} (fetch : List Char → List α) (p w : List Char) (pid : Nat) :
    List (List Char × List α) :=
  reportBuckets.filterMap (reportStep fetch p w pid)

/-- Error message of `UploadRating.rate_candidate` (upload_rating.py
lines 73-74). -/
def uploadErrMsg : List Char :=
  "Candidate must be uploaded to Cornell before .pfd file can be uploaded.".toList

/-- Error message of `SharePfdRating.rate_candidate` (upload_rating.py
lines 110-111). -/
def shareErrMsg : List Char :=
  "Candidate must be uploaded to Cornell before .pfd file should be shared.".toList

/-- `UploadRating.rate_candidate`: returns the list of upload side-effect
calls performed (candidate id and .pfd filename) together with the result.
A candidate with no `cornell_pdm_cand_id` raises before any upload call;
otherwise the upload collaborator is invoked and the rating is 1 exactly
when it completes. -/
def uploadRating_rate_candidate (upload : Int → List Char → Except (List Char) Unit)
    (candId : Option Int) (pfdfn : List Char) :
    List (Int × List Char) × Except (List Char) Nat :=
  match candId with
  | none => ([], Except.error uploadErrMsg)
  | some cid =>
    ([(cid, pfdfn)],
      match upload cid pfdfn with
      | Except.ok _ => Except.ok 1
      | Except.error e => Except.error e)

/-- `SharePfdRating.rate_candidate`: like the upload rating, but the side
effect is the rsync transfer of the .pfd file. -/
def sharePfdRating_rate_candidate (share : List Char → Except (List Char) Unit)
    (candId : Option Int) (pfdfn : List Char) :
    List (List Char) × Except (List Char) Nat :=
  match candId with
  | none => ([], Except.error shareErrMsg)
  | some _ =>
    ([pfdfn],
      match share pfdfn with
      | Except.ok _ => Except.ok 1
      | Except.error e => Except.error e)

/-- Multiplicity of a table name in a table list. -/
def countTbl (x : List Char) : List (List Char) → Nat
  | [] => 0
  | t :: ts => (if t = x then 1 else 0) + countTbl x ts

/-- `occursTag tag body s` is true when some position of `s` carries the
tag character immediately followed by a match of `body`, i.e. when one of
the shorthand patterns still occurs in `s`. -/
def occursTag (tag : Char) (body : List Char → Option (List Char × List Char)) :
    List Char → Bool
  | [] => false
  | c :: cs => (c == tag && (body cs).isSome) || occursTag tag body cs

/-- A segment of a well-formed input expression: a plain character or one
simple (non-nested) shorthand block. -/
inductive Seg where
  | plain : Char → Seg
  | cb : List Char → Seg
  | hb : List Char → Seg
  | rb : List Char → Seg

/-- The input text of one segment. -/
def Seg.render : Seg → List Char
  | .plain ch => [ch]
  | .cb f => 'c' :: lbrace :: (f ++ [rbrace])
  | .hb f => 'h' :: lbrace :: (f ++ [rbrace])
  | .rb d => 'r' :: lbrace :: (d ++ [rbrace])

/-- The text of one segment after the candidate pass. -/
def Seg.renderC : Seg → List Char
  | .plain ch => [ch]
  | .cb f => crep f
  | .hb f => 'h' :: lbrace :: (f ++ [rbrace])
  | .rb d => 'r' :: lbrace :: (d ++ [rbrace])

/-- The text of one segment after the candidate and header passes. -/
def Seg.renderH : Seg → List Char
  | .plain ch => [ch]
  | .cb f => crep f
  | .hb f => hrep f
  | .rb d => 'r' :: lbrace :: (d ++ [rbrace])

/-- The text of one segment after all three passes. -/
def Seg.renderR : Seg → List Char
  | .plain ch => [ch]
  | .cb f => crep f
  | .hb f => hrep f
  | .rb d => rrep d

/-- Well-formedness of one segment: a plain character is not an opening
brace, fields contain no braces, rating ids are digit runs. -/
def Seg.wf : Seg → Bool
  | .plain ch => ch != lbrace
  | .cb f => f.all (fun ch => ch != lbrace && ch != rbrace)
  | .hb f => f.all (fun ch => ch != lbrace && ch != rbrace)
  | .rb d => d.all isDig

/-- The input string denoted by a list of segments. -/
def renderAll (segs : List Seg) : List Char := (segs.map Seg.render).flatten

/-- The string after the candidate pass. -/
def renderAllC (segs : List Seg) : List Char := (segs.map Seg.renderC).flatten

/-- The string after the candidate and header passes. -/
def renderAllH (segs : List Seg) : List Char := (segs.map Seg.renderH).flatten

/-- The string after all three passes. -/
def renderAllR (segs : List Seg) : List Char := (segs.map Seg.renderR).flatten

/-- Well-formedness of a segment list. -/
def segsWF (segs : List Seg) : Bool := segs.all Seg.wf

theorem braceBody_bound : ∀ cs f a, braceBody cs = some (f, a) → a.length ≤ cs.length := by
  intro cs f a h
  cases cs with
  | nil => exact Option.noConfusion h
  | cons b rest =>
    simp only [braceBody] at h
    split at h
    · split at h
      next x a' heq =>
        injection h with h2
        have ha : a' = a := congrArg Prod.snd h2
        have hlen : (x :: a').length ≤ rest.length := by
          rw [← heq, List.length_drop]; omega
        cases ha
        simp only [List.length_cons] at hlen ⊢
        omega
      next heq => exact Option.noConfusion h
    · exact Option.noConfusion h

theorem ratingBody_bound : ∀ cs f a, ratingBody cs = some (f, a) → a.length ≤ cs.length := by
  intro cs f a h
  cases cs with
  | nil => exact Option.noConfusion h
  | cons b rest =>
    simp only [ratingBody] at h
    split at h
    · split at h
      next x a' heq =>
        split at h
        · injection h with h2
          have ha : a' = a := congrArg Prod.snd h2
          have hlen : (x :: a').length ≤ rest.length := by
            rw [← heq, List.length_drop]; omega
          cases ha
          simp only [List.length_cons] at hlen ⊢
          omega
        · exact Option.noConfusion h
      next heq => exact Option.noConfusion h
    · exact Option.noConfusion h

theorem subF_fuel (tag : Char) (body : List Char → Option (List Char × List Char))
    (rep : List Char → List Char)
    (hb : ∀ cs f a, body cs = some (f, a) → a.length ≤ cs.length) :
    ∀ n s, s.length ≤ n → subF tag body rep n s = subst tag body rep s := by
  intro n
  induction n using Nat.strong_induction_on with
  | _ n ih =>
    intro s hs
    match n, s with
    | 0, s =>
      have : s = [] := List.length_eq_zero.mp (Nat.le_zero.mp hs)
      subst this; rfl
    | n + 1, [] => rfl
    | n + 1, c :: cs =>
      have hcs : cs.length ≤ n := by simpa using hs
      show subF tag body rep (n + 1) (c :: cs) = subF tag body rep (c :: cs).length (c :: cs)
      by_cases hc : c = tag
      · cases hbc : body cs with
        | none =>
          show (if c = tag then _ else _) = (if c = tag then _ else _)
          rw [if_pos hc, if_pos hc, hbc]
          show c :: subF tag body rep n cs = c :: subF tag body rep cs.length cs
          rw [ih n (Nat.lt_succ_self n) cs hcs]
          rw [ih cs.length (Nat.lt_succ_of_le hcs) cs (le_refl _)]
        | some fa =>
          obtain ⟨f, a⟩ := fa
          have ha : a.length ≤ cs.length := hb cs f a hbc
          show (if c = tag then _ else _) = (if c = tag then _ else _)
          rw [if_pos hc, if_pos hc, hbc]
          show rep f ++ subF tag body rep n a = rep f ++ subF tag body rep cs.length a
          rw [ih n (Nat.lt_succ_self n) a (ha.trans hcs)]
          rw [ih cs.length (Nat.lt_succ_of_le hcs) a ha]
      · show (if c = tag then _ else _) = (if c = tag then _ else _)
        rw [if_neg hc, if_neg hc]
        show c :: subF tag body rep n cs = c :: subF tag body rep cs.length cs
        rw [ih n (Nat.lt_succ_self n) cs hcs]
        rw [ih cs.length (Nat.lt_succ_of_le hcs) cs (le_refl _)]

theorem subst_cons_none (tag : Char) (body : List Char → Option (List Char × List Char))
    (rep : List Char → List Char) {c : Char} {cs : List Char}
    (h : ¬(c = tag ∧ (body cs).isSome = true)) :
    subst tag body rep (c :: cs) = c :: subst tag body rep cs := by
  show subF tag body rep (cs.length + 1) (c :: cs) = _
  by_cases hc : c = tag
  · have hn : body cs = none := by
      cases hbc : body cs with
      | none => rfl
      | some fa => exact absurd ⟨hc, by simp [hbc]⟩ h
    show (if c = tag then _ else _) = _
    rw [if_pos hc, hn]
    rfl
  · show (if c = tag then _ else _) = _
    rw [if_neg hc]
    rfl

theorem subst_cons_some (tag : Char) (body : List Char → Option (List Char × List Char))
    (rep : List Char → List Char)
    (hb : ∀ cs f a, body cs = some (f, a) → a.length ≤ cs.length)
    {c : Char} {cs f a : List Char} (hc : c = tag) (h : body cs = some (f, a)) :
    subst tag body rep (c :: cs) = rep f ++ subst tag body rep a := by
  have ha : a.length ≤ cs.length := hb cs f a h
  show subF tag body rep (cs.length + 1) (c :: cs) = _
  show (if c = tag then _ else _) = _
  rw [if_pos hc, h]
  show rep f ++ subF tag body rep cs.length a = _
  rw [subF_fuel tag body rep hb cs.length a ha]

theorem subst_id_of_no_occurs (tag : Char) (body : List Char → Option (List Char × List Char))
    (rep : List Char → List Char) {s : List Char} (h : occursTag tag body s = false) :
    subst tag body rep s = s := by
  induction s with
  | nil => rfl
  | cons c cs ih =>
    have h1 : ¬(c = tag ∧ (body cs).isSome = true) := by
      rintro ⟨hc, hsome⟩
      simp [occursTag, hc, hsome] at h
    have h2 : occursTag tag body cs = false := by
      cases hoc : occursTag tag body cs with
      | false => rfl
      | true => simp [occursTag, hoc] at h
    rw [subst_cons_none tag body rep h1, ih h2]

theorem braceBody_head {cs : List Char} (h : (braceBody cs).isSome = true) :
    cs.head? = some lbrace := by
  cases cs with
  | nil => simp [braceBody] at h
  | cons b rest =>
    by_cases hb : b = lbrace
    · simp [hb]
    · simp [braceBody, hb] at h

theorem ratingBody_head {cs : List Char} (h : (ratingBody cs).isSome = true) :
    cs.head? = some lbrace := by
  cases cs with
  | nil => simp [ratingBody] at h
  | cons b rest =>
    by_cases hb : b = lbrace
    · simp [hb]
    · simp [ratingBody, hb] at h

theorem subst_append_no_trigger (tag : Char)
    (body : List Char → Option (List Char × List Char)) (rep : List Char → List Char)
    (hbh : ∀ cs, (body cs).isSome = true → cs.head? = some lbrace) :
    ∀ u v, lbrace ∉ u → v.head? ≠ some lbrace →
      subst tag body rep (u ++ v) = u ++ subst tag body rep v := by
  intro u
  induction u with
  | nil => intro v _ _; simp
  | cons c u' ih =>
    intro v hu hv
    have hnm : ¬(c = tag ∧ (body (u' ++ v)).isSome = true) := by
      rintro ⟨-, hsome⟩
      have hh := hbh _ hsome
      cases u' with
      | nil => simp only [List.nil_append] at hh; exact hv hh
      | cons d u'' =>
        simp only [List.cons_append, List.head?_cons, Option.some.injEq] at hh
        exact hu (by simp [hh])
    rw [List.cons_append, subst_cons_none tag body rep hnm,
      ih v (fun hm => hu (List.mem_cons_of_mem _ hm)) hv]
    rfl

/-- Claim C1: on input `c  brace snr brace  * r brace 12 brace ` with filter
`h brace nchan brace  > 0`, the rewriter yields
`pdm_candidates.snr * rat12.value` and `headers.nchan > 0`; the sorted
union of the extracted tables is exactly headers, pdm_candidates, rat12;
and the built query selects the rewritten expression as
`composite_rating`, contains exactly one header join clause and exactly
one join clause aliasing the ratings relation as `rat12` with predicate
`rat12.rating_id = 12`. -/
theorem claim_C1 (pid : Nat) :
    prep_composite_rating "c\x7bsnr\x7d * r\x7b12\x7d".toList =
      "pdm_candidates.snr * rat12.value".toList ∧
    prep_composite_rating "h\x7bnchan\x7d > 0".toList = "headers.nchan > 0".toList ∧
    query_tables "pdm_candidates.snr * rat12.value".toList "headers.nchan > 0".toList
        false [] =
      ["headers".toList, "pdm_candidates".toList, "rat12".toList] ∧
    startsSeq "SELECT pdm_candidates.snr * rat12.value AS composite_rating".toList
      (build_query "pdm_candidates.snr * rat12.value".toList
        "headers.nchan > 0".toList false [] pid) = true ∧
    countSeq hdrJoin
      (build_query "pdm_candidates.snr * rat12.value".toList
        "headers.nchan > 0".toList false [] pid) = 1 ∧
    countSeq
      " LEFT JOIN ratings AS rat12 ON  rat12.pdm_cand_id = pdm_candidates.pdm_cand_id AND  rat12.rating_id = 12 ".toList
      (build_query "pdm_candidates.snr * rat12.value".toList
        "headers.nchan > 0".toList false [] pid) = 1 := by
  have hq : build_query "pdm_candidates.snr * rat12.value".toList
      "headers.nchan > 0".toList false [] pid =
      "SELECT pdm_candidates.snr * rat12.value AS composite_rating FROM pdm_candidates  LEFT JOIN headers ON  headers.header_id = pdm_candidates.header_id  LEFT JOIN ratings AS rat12 ON  rat12.pdm_cand_id = pdm_candidates.pdm_cand_id AND  rat12.rating_id = 12 WHERE headers.nchan > 0  HAVING composite_rating IS NOT NULL".toList := rfl
  refine ⟨by decide, by decide, by decide, ?_, ?_, ?_⟩ <;> rw [hq] <;> decide

/-- Claim C6: every query built by `build_query`, whatever the arguments,
ends with the text `HAVING composite_rating IS NOT NULL`. -/
theorem claim_C6 (expr w : List Char) (noTest : Bool) (cls : List Nat) (pid : Nat) :
    ∃ a, build_query expr w noTest cls pid =
      a ++ "HAVING composite_rating IS NOT NULL".toList := by
  refine ⟨selectFrom expr ++ ((query_tables expr w noTest cls).map (joinClause pid)).flatten ++
    ("WHERE ".toList ++ w ++ " ".toList ++
      (if noTest then srcNamePred else []) ++
      (if cls ≠ [] then clsPred cls else []) ++ [' ']), ?_⟩
  have h : havingClause = [' '] ++ "HAVING composite_rating IS NOT NULL".toList := by decide
  simp only [build_query, wherePart, h, List.append_assoc]

/-- Claim C10: the rewriter accepts an empty rating id: `r` with empty
braces maps to `rat.value`; `get_tables` on that canonical form reports
the table `rat`; and `build_query` emits a rating join whose predicate
compares `rat.rating_id` to the empty digit string. -/
theorem claim_C10 (pid : Nat) :
    prep_composite_rating "r\x7b\x7d".toList = "rat.value".toList ∧
    get_tables "rat.value".toList = ["rat".toList] ∧
    ratJoin "rat".toList =
      " LEFT JOIN ratings AS rat ON  rat.pdm_cand_id = pdm_candidates.pdm_cand_id AND  rat.rating_id =  ".toList ∧
    containsSeq "rat.rating_id = ".toList
      (build_query "rat.value".toList "1".toList false [] pid) = true := by
  have hq : build_query "rat.value".toList "1".toList false [] pid =
      "SELECT rat.value AS composite_rating FROM pdm_candidates  LEFT JOIN ratings AS rat ON  rat.pdm_cand_id = pdm_candidates.pdm_cand_id AND  rat.rating_id =  WHERE 1  HAVING composite_rating IS NOT NULL".toList := rfl
  refine ⟨by decide, by decide, by decide, ?_⟩
  rw [hq]
  decide

/-- Claim C3 (counterexample): the token rewriter is not idempotent on all
strings.  On the nested input `c brace c brace a brace brace` the first pass
greedily matches up to the first closing brace, leaving the shorthand
`c brace a brace` in its output, which a second run rewrites again. -/
theorem claim_C3_counterexample :
    prep_composite_rating (prep_composite_rating "c\x7bc\x7ba\x7d\x7d".toList) ≠
      prep_composite_rating "c\x7bc\x7ba\x7d\x7d".toList := by
  decide

/-- Claim C3 (amended): the rewriter is a no-op on strings with no
remaining shorthand pattern, hence `rewrite(rewrite(s)) = rewrite(s)`
whenever the output of the first rewrite is pattern-free (the unrestricted
claim fails on nested-brace inputs). -/
theorem claim_C3_amended (s : List Char)
    (h1 : occursTag 'c' braceBody (prep_composite_rating s) = false)
    (h2 : occursTag 'h' braceBody (prep_composite_rating s) = false)
    (h3 : occursTag 'r' ratingBody (prep_composite_rating s) = false) :
    prep_composite_rating (prep_composite_rating s) = prep_composite_rating s := by
  show subst 'r' ratingBody rrep
      (subst 'h' braceBody hrep (subst 'c' braceBody crep (prep_composite_rating s))) = _
  rw [subst_id_of_no_occurs 'c' braceBody crep h1,
    subst_id_of_no_occurs 'h' braceBody hrep h2,
    subst_id_of_no_occurs 'r' ratingBody rrep h3]

/-- Witness for the amended claim C3 at a concrete pattern-free rewrite. -/
theorem claim_C3_amended_witness :
    occursTag 'c' braceBody (prep_composite_rating "c\x7bsnr\x7d * r\x7b12\x7d".toList) =
      false ∧
    prep_composite_rating (prep_composite_rating "c\x7bsnr\x7d * r\x7b12\x7d".toList) =
      prep_composite_rating "c\x7bsnr\x7d * r\x7b12\x7d".toList :=
  ⟨by decide, claim_C3_amended _ (by decide) (by decide) (by decide)⟩

/-- Claim C9: for a candidate whose `cornell_pdm_cand_id` is None, both
side-effect ratings fail with their descriptive message and perform no
side effect, and each returns 1 only when its side effect completed. -/
theorem claim_C9 (upload : Int → List Char → Except (List Char) Unit)
    (share : List Char → Except (List Char) Unit) (candId : Option Int) (pfdfn : List Char) :
    (candId = none →
      uploadRating_rate_candidate upload candId pfdfn = ([], Except.error uploadErrMsg) ∧
      sharePfdRating_rate_candidate share candId pfdfn = ([], Except.error shareErrMsg)) ∧
    (∀ r, (uploadRating_rate_candidate upload candId pfdfn).2 = Except.ok r →
      r = 1 ∧ ∃ cid, candId = some cid ∧ upload cid pfdfn = Except.ok () ∧
        (uploadRating_rate_candidate upload candId pfdfn).1 = [(cid, pfdfn)]) ∧
    (∀ r, (sharePfdRating_rate_candidate share candId pfdfn).2 = Except.ok r →
      r = 1 ∧ share pfdfn = Except.ok () ∧ ∃ cid, candId = some cid) := by
  refine ⟨?_, ?_, ?_⟩
  · rintro rfl
    exact ⟨rfl, rfl⟩
  · intro r h
    cases candId with
    | none => exact Except.noConfusion h
    | some cid =>
      cases hu : upload cid pfdfn with
      | ok u =>
        have hr : r = 1 := by
          simp only [uploadRating_rate_candidate, hu] at h
          exact (Except.ok.inj h).symm
        exact ⟨hr, cid, rfl, by cases u; exact hu, rfl⟩
      | error e =>
        simp only [uploadRating_rate_candidate, hu] at h
        exact Except.noConfusion h
  · intro r h
    cases candId with
    | none => exact Except.noConfusion h
    | some cid =>
      cases hs : share pfdfn with
      | ok u =>
        have hr : r = 1 := by
          simp only [sharePfdRating_rate_candidate, hs] at h
          exact (Except.ok.inj h).symm
        refine ⟨hr, ?_, cid, rfl⟩
        cases u
        rfl
      | error e =>
        simp only [sharePfdRating_rate_candidate, hs] at h
        exact Except.noConfusion h

/-- Witness for claim C9 at a concrete missing-id candidate. -/
theorem claim_C9_witness :
    uploadRating_rate_candidate (fun _ _ => Except.ok ()) none [] =
      ([], Except.error uploadErrMsg) ∧
    sharePfdRating_rate_candidate (fun _ => Except.ok ()) none [] =
      ([], Except.error shareErrMsg) :=
  (claim_C9 (fun _ _ => Except.ok ()) (fun _ => Except.ok ()) none []).1 rfl

theorem startsSeq_self (p r : List Char) : startsSeq p (p ++ r) = true := by
  induction p with
  | nil => rfl
  | cons c cs ih => simp [startsSeq, ih]

theorem containsSeq_of_startsSeq {p s : List Char} (h : startsSeq p s = true) :
    containsSeq p s = true := by
  cases s with
  | nil => exact h
  | cons c cs => simp [containsSeq, h]

theorem containsSeq_cons {p : List Char} (c : Char) {s : List Char}
    (h : containsSeq p s = true) : containsSeq p (c :: s) = true := by
  simp [containsSeq, h]

theorem containsSeq_append_left (u : List Char) {p v : List Char}
    (h : containsSeq p v = true) : containsSeq p (u ++ v) = true := by
  induction u with
  | nil => exact h
  | cons c cs ih => exact containsSeq_cons c ih

theorem takeWhile_append_drop_length (q : Char → Bool) :
    ∀ l : List Char, l.takeWhile q ++ l.drop (l.takeWhile q).length = l := by
  intro l
  induction l with
  | nil => rfl
  | cons c cs ih =>
    by_cases hq : q c
    · simp only [List.takeWhile_cons, hq, if_true, List.length_cons, List.drop_succ_cons,
        List.cons_append, List.cons.injEq, true_and]
      exact ih
    · simp [List.takeWhile_cons, hq]

theorem mem_takeWhile_pred (q : Char → Bool) :
    ∀ l : List Char, ∀ c ∈ l.takeWhile q, q c = true := by
  intro l
  induction l with
  | nil => intro c hc; exact absurd hc (by simp)
  | cons x xs ih =>
    intro c hc
    by_cases hq : q x
    · rw [List.takeWhile_cons, if_pos hq] at hc
      rcases List.mem_cons.mp hc with rfl | hc'
      · exact hq
      · exact ih c hc'
    · rw [List.takeWhile_cons, if_neg hq] at hc
      exact absurd hc (by simp)

theorem ratFindBody_parts {cs g a : List Char} (h : ratFindBody cs = some (g, a)) :
    (∃ d, g = 'r' :: 'a' :: 't' :: d ∧ ∀ c ∈ d, isDig c = true) ∧
    containsSeq g ('r' :: cs) = true ∧ ∃ u, 'r' :: cs = u ++ a := by
  unfold ratFindBody at h
  split at h
  case _ rest =>
    simp only [] at h
    have hsplit := takeWhile_append_drop_length isDig rest
    have hdig := mem_takeWhile_pred isDig rest
    set d := rest.takeWhile isDig with hd
    split at h
    next x xs heq =>
      have hre : rest = d ++ x :: xs := by rw [← hsplit, heq]
      split at h
      · -- the dot consumes the character after the digit run
        injection h with h1
        injection h1 with hg ha
        subst hg; subst ha
        refine ⟨⟨d, rfl, hdig⟩, ?_, ?_⟩
        · apply containsSeq_of_startsSeq
          rw [hre]
          show startsSeq ('r' :: 'a' :: 't' :: d) (('r' :: 'a' :: 't' :: d) ++ (x :: xs)) = true
          exact startsSeq_self _ _
        · refine ⟨('r' :: 'a' :: 't' :: d) ++ [x], ?_⟩
          rw [hre]
          simp [List.append_assoc]
      · split at h
        next hemp => exact Option.noConfusion h
        next hemp =>
          -- backtracking: the group drops the last digit, the dot consumes it
          injection h with h1
          injection h1 with hg ha
          subst hg; subst ha
          have hne : d ≠ [] := by
            intro hnil
            rw [hnil] at hemp
            exact hemp rfl
          have hlast : d.dropLast ++ [d.getLast hne] = d := List.dropLast_append_getLast hne
          refine ⟨⟨d.dropLast, rfl, fun c hc =>
            hdig c ((List.dropLast_sublist d).subset hc)⟩, ?_, ?_⟩
          · apply containsSeq_of_startsSeq
            have hshape : 'r' :: 'a' :: 't' :: (d ++ x :: xs) =
                ('r' :: 'a' :: 't' :: d.dropLast) ++ (d.getLast hne :: x :: xs) := by
              conv_lhs => rw [← hlast]
              simp [List.append_assoc]
            rw [hre, hshape]
            exact startsSeq_self _ _
          · refine ⟨'r' :: 'a' :: 't' :: d, ?_⟩
            rw [hre]
            rfl
    next heq =>
      have hrest : rest = d := by rw [← hsplit, heq, List.append_nil]
      split at h
      next hemp => exact Option.noConfusion h
      next hemp =>
        injection h with h1
        injection h1 with hg ha
        subst hg; subst ha
        have hne : d ≠ [] := by
          intro hnil
          rw [hnil] at hemp
          exact hemp rfl
        have hlast : d.dropLast ++ [d.getLast hne] = d := List.dropLast_append_getLast hne
        refine ⟨⟨d.dropLast, rfl, fun c hc =>
          hdig c ((List.dropLast_sublist d).subset hc)⟩, ?_, ?_⟩
        · apply containsSeq_of_startsSeq
          have hshape : 'r' :: 'a' :: 't' :: d =
              ('r' :: 'a' :: 't' :: d.dropLast) ++ [d.getLast hne] := by
            conv_lhs => rw [← hlast]
            simp [List.append_assoc]
          rw [hrest, hshape]
          exact startsSeq_self _ _
        · exact ⟨'r' :: 'a' :: 't' :: rest, by rw [List.append_nil]⟩
  case _ => exact Option.noConfusion h

theorem findRatF_sound : ∀ (fuel : Nat) (s g : List Char), g ∈ findRatF fuel s →
    (∃ d, g = 'r' :: 'a' :: 't' :: d ∧ ∀ c ∈ d, isDig c = true) ∧
    containsSeq g s = true := by
  intro fuel
  induction fuel with
  | zero => intro s g h; exact absurd h (by simp [findRatF])
  | succ n ih =>
    intro s g h
    cases s with
    | nil => exact absurd h (by simp [findRatF])
    | cons c cs =>
      by_cases hc : c = 'r'
      · cases hbd : ratFindBody cs with
        | none =>
          have h' : g ∈ findRatF n cs := by simpa [findRatF, hc, hbd] using h
          obtain ⟨hform, hocc⟩ := ih cs g h'
          exact ⟨hform, containsSeq_cons c hocc⟩
        | some ga =>
          obtain ⟨g', a⟩ := ga
          have h' : g = g' ∨ g ∈ findRatF n a := by simpa [findRatF, hc, hbd] using h
          rcases h' with rfl | hmem
          · obtain ⟨hform, hocc, -⟩ := ratFindBody_parts hbd
            subst hc
            exact ⟨hform, hocc⟩
          · obtain ⟨hform, hocc⟩ := ih a g hmem
            obtain ⟨-, -, u, hu⟩ := ratFindBody_parts hbd
            refine ⟨hform, ?_⟩
            subst hc
            rw [hu]
            exact containsSeq_append_left u hocc
      · have h' : g ∈ findRatF n cs := by simpa [findRatF, hc] using h
        obtain ⟨hform, hocc⟩ := ih cs g h'
        exact ⟨hform, containsSeq_cons c hocc⟩

theorem sortedDedup_nodup (l : List (List Char)) : (sortedDedup l).Nodup :=
  ((List.perm_insertionSort strLeP l.dedup).nodup_iff).mpr (List.nodup_dedup l)

theorem mem_sortedDedup {a : List Char} {l : List (List Char)} :
    a ∈ sortedDedup l ↔ a ∈ l :=
  (List.perm_insertionSort strLeP l.dedup).mem_iff.trans List.mem_dedup

/-- Claim C5 (counterexample): the substring criterion is not equivalent to
membership in `get_tables`.  On the canonical string `rat12` the text
`rat12` occurs as a substring, yet the scan needs a trailing character for
its final dot, backtracks, and reports the alias `rat1` instead. -/
theorem claim_C5_counterexample :
    containsSeq "rat12".toList "rat12".toList = true ∧
    get_tables "rat12".toList = ["rat1".toList] ∧
    "rat12".toList ∉ get_tables "rat12".toList := by
  refine ⟨by decide, by decide, by decide⟩

/-- Claim C5 (amended): every rating entry of `get_tables s` (any entry
other than the candidate- or header-table name) is of the form `rat`
followed by digits and occurs as a substring of `s`, and each distinct
entry appears at most once; the converse of the original claim is false,
because the match needs one trailing character after the digit run (an
occurrence at the end of the input is reported truncated by one digit) and
the non-overlapping scan can skip overlapped occurrences. -/
theorem claim_C5_amended (s : List Char) :
    (get_tables s).Nodup ∧
    ∀ t ∈ get_tables s,
      t = "pdm_candidates".toList ∨ t = "headers".toList ∨
      ((∃ d, t = 'r' :: 'a' :: 't' :: d ∧ ∀ c ∈ d, isDig c = true) ∧
        containsSeq t s = true) := by
  refine ⟨sortedDedup_nodup _, ?_⟩
  intro t ht
  have ht' := mem_sortedDedup.mp ht
  rcases List.mem_append.mp ht' with h1 | h2
  · rcases List.mem_append.mp h1 with ha | hb
    · left
      have ha' : containsSeq "pdm_candidates.".toList s = true ∧
          t = "pdm_candidates".toList := by simpa using ha
      exact ha'.2
    · right; left
      have hb' : containsSeq "headers.".toList s = true ∧
          t = "headers".toList := by simpa using hb
      exact hb'.2
  · right; right
    exact findRatF_sound s.length s t h2

/-- Witness for the amended claim C5 at the canonical string of rating 12. -/
theorem claim_C5_amended_witness :
    "rat12".toList = "pdm_candidates".toList ∨ "rat12".toList = "headers".toList ∨
    ((∃ d, "rat12".toList = 'r' :: 'a' :: 't' :: d ∧ ∀ c ∈ d, isDig c = true) ∧
      containsSeq "rat12".toList "rat12.value".toList = true) :=
  (claim_C5_amended "rat12.value".toList).2 "rat12".toList (by decide)

theorem mem_pysort {a : List Char} {l : List (List Char)} : a ∈ pysort l ↔ a ∈ l :=
  (List.perm_insertionSort strLeP l).mem_iff

theorem pysort_sorted (l : List (List Char)) : (pysort l).Sorted strLeP :=
  List.sorted_insertionSort strLeP l

theorem sortedDedup_sorted (l : List (List Char)) : (sortedDedup l).Sorted strLeP :=
  List.sorted_insertionSort strLeP l.dedup

theorem mem_step (cond : Prop) [Decidable cond] (l : List (List Char)) (x t : List Char) :
    (t ∈ if cond ∧ x ∉ l then pysort (l ++ [x]) else l) ↔ (t ∈ l ∨ (cond ∧ t = x)) := by
  by_cases h : cond ∧ x ∉ l
  · rw [if_pos h, mem_pysort, List.mem_append, List.mem_singleton]
    constructor
    · rintro (h1 | rfl)
      · exact Or.inl h1
      · exact Or.inr ⟨h.1, rfl⟩
    · rintro (h1 | ⟨-, rfl⟩)
      · exact Or.inl h1
      · exact Or.inr rfl
  · rw [if_neg h]
    constructor
    · intro h1; exact Or.inl h1
    · rintro (h1 | ⟨hc, rfl⟩)
      · exact h1
      · by_cases hx : t ∈ l
        · exact hx
        · exact absurd ⟨hc, hx⟩ h

theorem nodup_step (cond : Prop) [Decidable cond] (l : List (List Char)) (x : List Char)
    (h : l.Nodup) : (if cond ∧ x ∉ l then pysort (l ++ [x]) else l).Nodup := by
  by_cases hc : cond ∧ x ∉ l
  · rw [if_pos hc]
    refine ((List.perm_insertionSort strLeP _).nodup_iff).mpr ?_
    rw [List.nodup_append]
    exact ⟨h, List.nodup_singleton x, by simpa using hc.2⟩
  · rwa [if_neg hc]

theorem sorted_step (cond : Prop) [Decidable cond] (l : List (List Char)) (x : List Char)
    (h : l.Sorted strLeP) : (if cond ∧ x ∉ l then pysort (l ++ [x]) else l).Sorted strLeP := by
  by_cases hc : cond ∧ x ∉ l
  · rw [if_pos hc]; exact pysort_sorted _
  · rwa [if_neg hc]

theorem countTbl_append (x : List Char) (l₁ l₂ : List (List Char)) :
    countTbl x (l₁ ++ l₂) = countTbl x l₁ + countTbl x l₂ := by
  induction l₁ with
  | nil => simp [countTbl]
  | cons t ts ih => simp [countTbl, ih]; omega

theorem countTbl_eq_zero {x : List Char} {l : List (List Char)} (h : x ∉ l) :
    countTbl x l = 0 := by
  induction l with
  | nil => rfl
  | cons t ts ih =>
    have ht : ¬t = x := fun he => h (he ▸ List.mem_cons_self t ts)
    simp only [countTbl, ht, if_false]
    rw [ih fun hm => h (List.mem_cons_of_mem t hm)]

theorem countTbl_eq_countP (x : List Char) (l : List (List Char)) :
    countTbl x l = l.countP (fun t => decide (t = x)) := by
  induction l with
  | nil => rfl
  | cons t ts ih =>
    rw [List.countP_cons]
    simp only [countTbl, ih]
    by_cases h : t = x
    · simp [h]
      omega
    · simp [h]

theorem countTbl_perm (x : List Char) {l₁ l₂ : List (List Char)} (h : l₁.Perm l₂) :
    countTbl x l₁ = countTbl x l₂ := by
  rw [countTbl_eq_countP, countTbl_eq_countP]
  exact h.countP_eq _

theorem count_step_add (cond : Prop) [Decidable cond] (l : List (List Char)) (x : List Char)
    (hcond : cond) (hx : x ∉ l) :
    countTbl x (if cond ∧ x ∉ l then pysort (l ++ [x]) else l) = countTbl x l + 1 := by
  rw [if_pos ⟨hcond, hx⟩]
  unfold pysort
  rw [countTbl_perm _ (List.perm_insertionSort strLeP _), countTbl_append]
  simp [countTbl]

theorem count_step (cond : Prop) [Decidable cond] (l : List (List Char)) (x t : List Char)
    (hne : x ≠ t) :
    countTbl t (if cond ∧ x ∉ l then pysort (l ++ [x]) else l) = countTbl t l := by
  by_cases hc : cond ∧ x ∉ l
  · rw [if_pos hc]
    unfold pysort
    rw [countTbl_perm t (List.perm_insertionSort strLeP (l ++ [x])), countTbl_append]
    simp [countTbl, hne]
  · rw [if_neg hc]

theorem mem_query_tables (expr w : List Char) (nt : Bool) (cls : List Nat) (t : List Char) :
    t ∈ query_tables expr w nt cls ↔
      t ∈ get_tables expr ∨ t ∈ get_tables w ∨ (nt = true ∧ t = "headers".toList) ∨
      (cls ≠ [] ∧ t = "pdm_classifications".toList) := by
  unfold query_tables
  simp only []
  rw [mem_step, mem_step, mem_sortedDedup, List.mem_append]
  tauto

theorem query_tables_nodup (expr w : List Char) (nt : Bool) (cls : List Nat) :
    (query_tables expr w nt cls).Nodup := by
  unfold query_tables
  simp only []
  exact nodup_step _ _ _ (nodup_step _ _ _ (sortedDedup_nodup _))

theorem query_tables_sorted (expr w : List Char) (nt : Bool) (cls : List Nat) :
    (query_tables expr w nt cls).Sorted strLeP := by
  unfold query_tables
  simp only []
  exact sorted_step _ _ _ (sorted_step _ _ _ (sortedDedup_sorted _))

/-- Claim C2: the tables for which `build_query` emits a join clause are
exactly those extracted from the expression and the filter, plus the
sources forced by the two optional flags; the table list is sorted with no
duplicates, each listed table contributes its single join clause through
one `map`/`flatten` pass, and the candidate table (the FROM table)
contributes no join clause. -/
theorem claim_C2 (expr w : List Char) (nt : Bool) (cls : List Nat) (pid : Nat) :
    (query_tables expr w nt cls).Sorted strLeP ∧
    (query_tables expr w nt cls).Nodup ∧
    (∀ t, t ∈ query_tables expr w nt cls ↔
      t ∈ get_tables expr ∨ t ∈ get_tables w ∨ (nt = true ∧ t = "headers".toList) ∨
      (cls ≠ [] ∧ t = "pdm_classifications".toList)) ∧
    joinClause pid "pdm_candidates".toList = [] ∧
    build_query expr w nt cls pid =
      selectFrom expr ++ ((query_tables expr w nt cls).map (joinClause pid)).flatten ++
        wherePart w nt cls :=
  ⟨query_tables_sorted expr w nt cls, query_tables_nodup expr w nt cls,
    mem_query_tables expr w nt cls, rfl, rfl⟩

theorem headers_not_mem_get_tables {s : List Char}
    (h : containsSeq "headers.".toList s = false) :
    "headers".toList ∉ get_tables s := by
  intro hmem
  have hm := mem_sortedDedup.mp hmem
  rcases List.mem_append.mp hm with h1 | h2
  · rcases List.mem_append.mp h1 with ha | hb
    · simp at ha
    · have hb' : containsSeq "headers.".toList s = true ∧
          "headers".toList = "headers".toList := by simpa using hb
      rw [hb'.1] at h
      simp at h
  · obtain ⟨⟨d, hform, -⟩, -⟩ := findRatF_sound s.length s _ h2
    simp at hform

/-- Claim C7: when neither the canonical expression nor the filter
references the header table, `build_query` with `no_test` set still joins
the header table, exactly once, with the header join predicate, and the
WHERE section is extended with the real-source predicate on
`headers.source_name`. -/
theorem claim_C7 (expr w : List Char) (cls : List Nat) (pid : Nat)
    (hE : containsSeq "headers.".toList expr = false)
    (hW : containsSeq "headers.".toList w = false) :
    countTbl "headers".toList (query_tables expr w true cls) = 1 ∧
    (∃ a b, build_query expr w true cls pid = a ++ hdrJoin ++ b) ∧
    build_query expr w true cls pid =
      selectFrom expr ++ ((query_tables expr w true cls).map (joinClause pid)).flatten ++
        ("WHERE ".toList ++ w ++ " ".toList ++ srcNamePred ++
          (if cls ≠ [] then clsPred cls else []) ++ havingClause) := by
  have h1 : "headers".toList ∉ get_tables expr := headers_not_mem_get_tables hE
  have h2 : "headers".toList ∉ get_tables w := headers_not_mem_get_tables hW
  have h0 : "headers".toList ∉ sortedDedup (get_tables w ++ get_tables expr) := by
    rw [mem_sortedDedup, List.mem_append]
    rintro (hc | hc)
    · exact h2 hc
    · exact h1 hc
  refine ⟨?_, ?_, ?_⟩
  · unfold query_tables
    simp only []
    rw [count_step (cls ≠ []) _ "pdm_classifications".toList "headers".toList (by decide)]
    rw [count_step_add True _ "headers".toList trivial h0, countTbl_eq_zero h0]
  · have hdrm : "headers".toList ∈ query_tables expr w true cls :=
      (mem_query_tables expr w true cls _).mpr (Or.inr (Or.inr (Or.inl ⟨rfl, rfl⟩)))
    obtain ⟨u, v, huv⟩ := List.append_of_mem hdrm
    refine ⟨selectFrom expr ++ (u.map (joinClause pid)).flatten,
      (v.map (joinClause pid)).flatten ++ wherePart w true cls, ?_⟩
    unfold build_query
    rw [huv]
    simp only [List.map_append, List.map_cons, List.flatten_append, List.flatten_cons,
      List.append_assoc, show joinClause pid "headers".toList = hdrJoin from rfl]
  · simp [build_query, wherePart]

/-- Witness for claim C7: an expression and filter with no header
reference, under the exclude-test-sources flag. -/
theorem claim_C7_witness :
    containsSeq "headers.".toList "rat3.value".toList = false ∧
    countTbl "headers".toList (query_tables "rat3.value".toList "1".toList true []) = 1 :=
  ⟨by decide, (claim_C7 "rat3.value".toList "1".toList [] 7 (by decide) (by decide)).1⟩


theorem drop_length_append (l₁ l₂ : List Char) : (l₁ ++ l₂).drop l₁.length = l₂ := by
  induction l₁ with
  | nil => rfl
  | cons c cs ih =>
    rw [List.cons_append, List.length_cons, List.drop_succ_cons, ih]

theorem takeWhile_append_stop (p : Char → Bool) (f : List Char) (x : Char) (v : List Char)
    (hf : ∀ c ∈ f, p c = true) (hx : p x = false) :
    (f ++ x :: v).takeWhile p = f := by
  induction f with
  | nil => simp [List.takeWhile_cons, hx]
  | cons c cs ih =>
    have hc : p c = true := hf c (List.mem_cons_self _ _)
    rw [List.cons_append, List.takeWhile_cons, if_pos hc,
      ih fun d hd => hf d (List.mem_cons_of_mem _ hd)]

theorem braceBody_block {f : List Char} (v : List Char) (hf : ∀ ch ∈ f, ch ≠ rbrace) :
    braceBody (lbrace :: (f ++ rbrace :: v)) = some (f, v) := by
  have hf' : ∀ c ∈ f, (c != rbrace) = true := by
    intro c hc
    simp only [bne_iff_ne, ne_eq]
    exact hf c hc
  have ht : (f ++ rbrace :: v).takeWhile (fun c => c != rbrace) = f :=
    takeWhile_append_stop _ f rbrace v hf' (by simp)
  have hdrop : (f ++ rbrace :: v).drop f.length = rbrace :: v :=
    drop_length_append f (rbrace :: v)
  simp only [braceBody, if_pos rfl]
  rw [ht, hdrop]
  simp

theorem ratingBody_block {d : List Char} (v : List Char) (hd : ∀ ch ∈ d, isDig ch = true) :
    ratingBody (lbrace :: (d ++ rbrace :: v)) = some (d, v) := by
  have ht : (d ++ rbrace :: v).takeWhile isDig = d :=
    takeWhile_append_stop _ d rbrace v hd (by decide)
  have hdrop : (d ++ rbrace :: v).drop d.length = rbrace :: v :=
    drop_length_append d (rbrace :: v)
  simp only [ratingBody, if_pos rfl]
  rw [ht, hdrop]
  simp

theorem ne_lbrace_of_isDig {ch : Char} (h : isDig ch = true) : ch ≠ lbrace := by
  intro he
  rw [he] at h
  exact absurd h (by decide)

theorem renderAll_cons (seg : Seg) (rest : List Seg) :
    renderAll (seg :: rest) = seg.render ++ renderAll rest := rfl

theorem renderAllC_cons (seg : Seg) (rest : List Seg) :
    renderAllC (seg :: rest) = seg.renderC ++ renderAllC rest := rfl

theorem renderAllH_cons (seg : Seg) (rest : List Seg) :
    renderAllH (seg :: rest) = seg.renderH ++ renderAllH rest := rfl

theorem renderAllR_cons (seg : Seg) (rest : List Seg) :
    renderAllR (seg :: rest) = seg.renderR ++ renderAllR rest := rfl

theorem segsWF_cons {seg : Seg} {rest : List Seg} (h : segsWF (seg :: rest) = true) :
    seg.wf = true ∧ segsWF rest = true := by
  simpa [segsWF, Bool.and_eq_true] using h

theorem renderAll_head_ne {segs : List Seg} (h : segsWF segs = true) :
    (renderAll segs).head? ≠ some lbrace := by
  cases segs with
  | nil => simp [renderAll]
  | cons seg rest =>
    obtain ⟨hseg, -⟩ := segsWF_cons h
    rw [renderAll_cons]
    cases seg with
    | plain ch =>
      have hch : ch ≠ lbrace := by simpa [Seg.wf] using hseg
      simpa [Seg.render] using hch
    | cb f => simp [Seg.render]; decide
    | hb f => simp [Seg.render]; decide
    | rb d => simp [Seg.render]; decide

theorem renderAllC_head_ne {segs : List Seg} (h : segsWF segs = true) :
    (renderAllC segs).head? ≠ some lbrace := by
  cases segs with
  | nil => simp [renderAllC]
  | cons seg rest =>
    obtain ⟨hseg, -⟩ := segsWF_cons h
    rw [renderAllC_cons]
    cases seg with
    | plain ch =>
      have hch : ch ≠ lbrace := by simpa [Seg.wf] using hseg
      simpa [Seg.renderC] using hch
    | cb f => simp [Seg.renderC, crep]; decide
    | hb f => simp [Seg.renderC]; decide
    | rb d => simp [Seg.renderC]; decide

theorem renderAllH_head_ne {segs : List Seg} (h : segsWF segs = true) :
    (renderAllH segs).head? ≠ some lbrace := by
  cases segs with
  | nil => simp [renderAllH]
  | cons seg rest =>
    obtain ⟨hseg, -⟩ := segsWF_cons h
    rw [renderAllH_cons]
    cases seg with
    | plain ch =>
      have hch : ch ≠ lbrace := by simpa [Seg.wf] using hseg
      simpa [Seg.renderH] using hch
    | cb f => simp [Seg.renderH, crep]; decide
    | hb f => simp [Seg.renderH, hrep]; decide
    | rb d => simp [Seg.renderH]; decide

theorem seg_field_wf {f : List Char} (h : f.all (fun ch => ch != lbrace && ch != rbrace) = true) :
    ∀ ch ∈ f, ¬ch = lbrace ∧ ¬ch = rbrace := by
  intro ch hch
  have := List.all_eq_true.mp h ch hch
  simpa using this

theorem lbrace_not_mem_field {f : List Char}
    (hf : ∀ ch ∈ f, ¬ch = lbrace ∧ ¬ch = rbrace) : lbrace ∉ f ++ [rbrace] := by
  intro hm
  rcases List.mem_append.mp hm with hm | hm
  · exact (hf lbrace hm).1 rfl
  · rw [List.mem_singleton] at hm
    exact absurd hm (by decide)

theorem lbrace_not_mem_digits {d : List Char} (hd : ∀ ch ∈ d, isDig ch = true) :
    lbrace ∉ d ++ [rbrace] := by
  intro hm
  rcases List.mem_append.mp hm with hm | hm
  · exact ne_lbrace_of_isDig (hd lbrace hm) rfl
  · rw [List.mem_singleton] at hm
    exact absurd hm (by decide)

theorem csub_renderAll (segs : List Seg) (h : segsWF segs = true) :
    subst 'c' braceBody crep (renderAll segs) = renderAllC segs := by
  induction segs with
  | nil => rfl
  | cons seg rest ih =>
    obtain ⟨hseg, hrest⟩ := segsWF_cons h
    have hhead := renderAll_head_ne hrest
    rw [renderAll_cons, renderAllC_cons]
    cases seg with
    | plain ch =>
      show subst 'c' braceBody crep (ch :: renderAll rest) = ch :: renderAllC rest
      rw [subst_cons_none 'c' braceBody crep
        (by rintro ⟨-, hsome⟩; exact hhead (braceBody_head hsome)), ih hrest]
    | cb f =>
      have hf := seg_field_wf (by simpa [Seg.wf] using hseg)
      show subst 'c' braceBody crep
        ('c' :: lbrace :: ((f ++ [rbrace]) ++ renderAll rest)) = crep f ++ renderAllC rest
      have hb : braceBody (lbrace :: ((f ++ [rbrace]) ++ renderAll rest)) =
          some (f, renderAll rest) := by
        rw [List.append_assoc, List.singleton_append]
        exact braceBody_block _ fun ch hch => (hf ch hch).2
      rw [subst_cons_some 'c' braceBody crep braceBody_bound rfl hb, ih hrest]
    | hb f =>
      have hf := seg_field_wf (by simpa [Seg.wf] using hseg)
      show subst 'c' braceBody crep
          ('h' :: lbrace :: ((f ++ [rbrace]) ++ renderAll rest)) =
        'h' :: lbrace :: ((f ++ [rbrace]) ++ renderAllC rest)
      rw [subst_cons_none 'c' braceBody crep (by rintro ⟨hc, -⟩; exact absurd hc (by decide)),
        subst_cons_none 'c' braceBody crep (by rintro ⟨hc, -⟩; exact absurd hc (by decide)),
        subst_append_no_trigger 'c' braceBody crep (fun cs hs => braceBody_head hs)
          (f ++ [rbrace]) (renderAll rest) (lbrace_not_mem_field hf) hhead, ih hrest]
    | rb d =>
      have hd : ∀ ch ∈ d, isDig ch = true := by
        intro ch hch
        exact List.all_eq_true.mp (by simpa [Seg.wf] using hseg) ch hch
      show subst 'c' braceBody crep
          ('r' :: lbrace :: ((d ++ [rbrace]) ++ renderAll rest)) =
        'r' :: lbrace :: ((d ++ [rbrace]) ++ renderAllC rest)
      rw [subst_cons_none 'c' braceBody crep (by rintro ⟨hc, -⟩; exact absurd hc (by decide)),
        subst_cons_none 'c' braceBody crep (by rintro ⟨hc, -⟩; exact absurd hc (by decide)),
        subst_append_no_trigger 'c' braceBody crep (fun cs hs => braceBody_head hs)
          (d ++ [rbrace]) (renderAll rest) (lbrace_not_mem_digits hd) hhead, ih hrest]

theorem hsub_renderAllC (segs : List Seg) (h : segsWF segs = true) :
    subst 'h' braceBody hrep (renderAllC segs) = renderAllH segs := by
  induction segs with
  | nil => rfl
  | cons seg rest ih =>
    obtain ⟨hseg, hrest⟩ := segsWF_cons h
    have hhead := renderAllC_head_ne hrest
    rw [renderAllC_cons, renderAllH_cons]
    cases seg with
    | plain ch =>
      show subst 'h' braceBody hrep (ch :: renderAllC rest) = ch :: renderAllH rest
      rw [subst_cons_none 'h' braceBody hrep
        (by rintro ⟨-, hsome⟩; exact hhead (braceBody_head hsome)), ih hrest]
    | cb f =>
      have hf := seg_field_wf (by simpa [Seg.wf] using hseg)
      show subst 'h' braceBody hrep (crep f ++ renderAllC rest) = crep f ++ renderAllH rest
      have hu : lbrace ∉ crep f := by
        intro hm
        rcases List.mem_append.mp hm with hm | hm
        · revert hm; decide
        · exact (hf lbrace hm).1 rfl
      rw [subst_append_no_trigger 'h' braceBody hrep (fun cs hs => braceBody_head hs)
        (crep f) (renderAllC rest) hu hhead, ih hrest]
    | hb f =>
      have hf := seg_field_wf (by simpa [Seg.wf] using hseg)
      show subst 'h' braceBody hrep
        ('h' :: lbrace :: ((f ++ [rbrace]) ++ renderAllC rest)) = hrep f ++ renderAllH rest
      have hb : braceBody (lbrace :: ((f ++ [rbrace]) ++ renderAllC rest)) =
          some (f, renderAllC rest) := by
        rw [List.append_assoc, List.singleton_append]
        exact braceBody_block _ fun ch hch => (hf ch hch).2
      rw [subst_cons_some 'h' braceBody hrep braceBody_bound rfl hb, ih hrest]
    | rb d =>
      have hd : ∀ ch ∈ d, isDig ch = true := by
        intro ch hch
        exact List.all_eq_true.mp (by simpa [Seg.wf] using hseg) ch hch
      show subst 'h' braceBody hrep
          ('r' :: lbrace :: ((d ++ [rbrace]) ++ renderAllC rest)) =
        'r' :: lbrace :: ((d ++ [rbrace]) ++ renderAllH rest)
      rw [subst_cons_none 'h' braceBody hrep (by rintro ⟨hc, -⟩; exact absurd hc (by decide)),
        subst_cons_none 'h' braceBody hrep (by rintro ⟨hc, -⟩; exact absurd hc (by decide)),
        subst_append_no_trigger 'h' braceBody hrep (fun cs hs => braceBody_head hs)
          (d ++ [rbrace]) (renderAllC rest) (lbrace_not_mem_digits hd) hhead, ih hrest]

theorem rsub_renderAllH (segs : List Seg) (h : segsWF segs = true) :
    subst 'r' ratingBody rrep (renderAllH segs) = renderAllR segs := by
  induction segs with
  | nil => rfl
  | cons seg rest ih =>
    obtain ⟨hseg, hrest⟩ := segsWF_cons h
    have hhead := renderAllH_head_ne hrest
    rw [renderAllH_cons, renderAllR_cons]
    cases seg with
    | plain ch =>
      show subst 'r' ratingBody rrep (ch :: renderAllH rest) = ch :: renderAllR rest
      rw [subst_cons_none 'r' ratingBody rrep
        (by rintro ⟨-, hsome⟩; exact hhead (ratingBody_head hsome)), ih hrest]
    | cb f =>
      have hf := seg_field_wf (by simpa [Seg.wf] using hseg)
      show subst 'r' ratingBody rrep (crep f ++ renderAllH rest) = crep f ++ renderAllR rest
      have hu : lbrace ∉ crep f := by
        intro hm
        rcases List.mem_append.mp hm with hm | hm
        · revert hm; decide
        · exact (hf lbrace hm).1 rfl
      rw [subst_append_no_trigger 'r' ratingBody rrep (fun cs hs => ratingBody_head hs)
        (crep f) (renderAllH rest) hu hhead, ih hrest]
    | hb f =>
      have hf := seg_field_wf (by simpa [Seg.wf] using hseg)
      show subst 'r' ratingBody rrep (hrep f ++ renderAllH rest) = hrep f ++ renderAllR rest
      have hu : lbrace ∉ hrep f := by
        intro hm
        rcases List.mem_append.mp hm with hm | hm
        · revert hm; decide
        · exact (hf lbrace hm).1 rfl
      rw [subst_append_no_trigger 'r' ratingBody rrep (fun cs hs => ratingBody_head hs)
        (hrep f) (renderAllH rest) hu hhead, ih hrest]
    | rb d =>
      have hd : ∀ ch ∈ d, isDig ch = true := by
        intro ch hch
        exact List.all_eq_true.mp (by simpa [Seg.wf] using hseg) ch hch
      show subst 'r' ratingBody rrep
        ('r' :: lbrace :: ((d ++ [rbrace]) ++ renderAllH rest)) = rrep d ++ renderAllR rest
      have hb : ratingBody (lbrace :: ((d ++ [rbrace]) ++ renderAllH rest)) =
          some (d, renderAllH rest) := by
        rw [List.append_assoc, List.singleton_append]
        exact ratingBody_block _ hd
      rw [subst_cons_some 'r' ratingBody rrep ratingBody_bound rfl hb, ih hrest]

theorem lbrace_not_mem_renderAllR (segs : List Seg) (h : segsWF segs = true) :
    lbrace ∉ renderAllR segs := by
  induction segs with
  | nil => simp [renderAllR]
  | cons seg rest ih =>
    obtain ⟨hseg, hrest⟩ := segsWF_cons h
    rw [renderAllR_cons]
    intro hm
    rcases List.mem_append.mp hm with hm | hm
    · cases seg with
      | plain ch =>
        rw [show (Seg.plain ch).renderR = [ch] from rfl, List.mem_singleton] at hm
        exact (by simpa [Seg.wf] using hseg : ¬ch = lbrace) hm.symm
      | cb f =>
        have hf := seg_field_wf (by simpa [Seg.wf] using hseg)
        rw [show (Seg.cb f).renderR = crep f from rfl] at hm
        rcases List.mem_append.mp hm with hm | hm
        · revert hm; decide
        · exact (hf lbrace hm).1 rfl
      | hb f =>
        have hf := seg_field_wf (by simpa [Seg.wf] using hseg)
        rw [show (Seg.hb f).renderR = hrep f from rfl] at hm
        rcases List.mem_append.mp hm with hm | hm
        · revert hm; decide
        · exact (hf lbrace hm).1 rfl
      | rb d =>
        have hd : ∀ ch ∈ d, isDig ch = true := by
          intro ch hch
          exact List.all_eq_true.mp (by simpa [Seg.wf] using hseg) ch hch
        rw [show (Seg.rb d).renderR = rrep d from rfl] at hm
        rcases List.mem_append.mp hm with hm | hm
        · rcases List.mem_append.mp hm with hm | hm
          · revert hm; decide
          · exact ne_lbrace_of_isDig (hd lbrace hm) rfl
        · revert hm; decide
    · exact ih hrest hm

theorem prep_renderAll (segs : List Seg) (h : segsWF segs = true) :
    prep_composite_rating (renderAll segs) = renderAllR segs := by
  unfold prep_composite_rating
  rw [csub_renderAll segs h, hsub_renderAllC segs h, rsub_renderAllH segs h]

/-- Claim C4 (counterexample): the rewriter is not total on all strings.
On the nested input `c brace c brace a brace brace` the output
`pdm_candidates.c brace a brace` still contains a substring of the
shorthand shape: a `c` tag followed by a brace-delimited field. -/
theorem claim_C4_counterexample :
    ∃ a f b, prep_composite_rating "c\x7bc\x7ba\x7d\x7d".toList =
      a ++ 'c' :: lbrace :: (f ++ rbrace :: b) ∧ rbrace ∉ f :=
  ⟨"pdm_candidates.".toList, ['a'], [], by decide, by decide⟩

/-- Claim C4 (amended): for every input that is a concatenation of
non-brace-opening plain characters and simple (non-nested) shorthand
blocks, the rewrite is total: its output contains no opening brace at
all, hence no substring of any of the shapes c-brace-field-brace,
h-brace-field-brace or r-brace-digits-brace.  (The unrestricted claim
fails on nested-brace inputs.) -/
theorem claim_C4_amended (segs : List Seg) (h : segsWF segs = true) :
    lbrace ∉ prep_composite_rating (renderAll segs) ∧
    (∀ a f b, prep_composite_rating (renderAll segs) ≠
      a ++ 'c' :: lbrace :: (f ++ rbrace :: b)) ∧
    (∀ a f b, prep_composite_rating (renderAll segs) ≠
      a ++ 'h' :: lbrace :: (f ++ rbrace :: b)) ∧
    (∀ a d b, prep_composite_rating (renderAll segs) ≠
      a ++ 'r' :: lbrace :: (d ++ rbrace :: b)) := by
  have h1 : lbrace ∉ prep_composite_rating (renderAll segs) := by
    rw [prep_renderAll segs h]
    exact lbrace_not_mem_renderAllR segs h
  refine ⟨h1, ?_, ?_, ?_⟩ <;>
    · intro a f b heq
      apply h1
      rw [heq]
      simp

/-- Witness for the amended claim C4 on the concrete well-formed input
`c brace snr brace  * r brace 12 brace `. -/
theorem claim_C4_amended_witness :
    segsWF [Seg.cb "snr".toList, Seg.plain ' ', Seg.plain '*', Seg.plain ' ',
      Seg.rb "12".toList] = true ∧
    lbrace ∉ prep_composite_rating (renderAll [Seg.cb "snr".toList, Seg.plain ' ',
      Seg.plain '*', Seg.plain ' ', Seg.rb "12".toList]) :=
  ⟨by decide, (claim_C4_amended _ (by decide)).1⟩

/-- Claim C8: `produce_report` issues exactly four queries whose
classification sets are, in order, empty, 4-5, 6-7 and 1-2-3; a bucket
whose fetched value sequence is empty is skipped rather than treated as an
error; every rendered series label carries the literal count of the values
in its bucket.  Instantiated at the spec's concrete counts 100, 10, 5, 0. -/
theorem claim_C8 {α : Type} (fetch : List Char → List α) (p w : List Char) (pid : Nat)
    (h1 : (fetch (build_query p w false [] pid)).length = 100)
    (h2 : (fetch (build_query p w false [4, 5] pid)).length = 10)
    (h3 : (fetch (build_query p w false [6, 7] pid)).length = 5)
    (h4 : (fetch (build_query p w false [1, 2, 3] pid)).length = 0) :
    reportBuckets.map Prod.fst = [[], [4, 5], [6, 7], [1, 2, 3]] ∧
    produce_report fetch p w pid =
      [("All Cands (100)".toList, fetch (build_query p w false [] pid)),
       ("RFI/Noise (10)".toList, fetch (build_query p w false [4, 5] pid)),
       ("Known/Harmonic (5)".toList, fetch (build_query p w false [6, 7] pid))] := by
  refine ⟨rfl, ?_⟩
  unfold produce_report reportBuckets reportStep
  simp only [List.filterMap_cons, h1, h2, h3, h4]
  norm_num
  refine ⟨rfl, rfl, rfl⟩

/-- Witness for claim C8 with a concrete data-store collaborator returning
sequences of lengths 100, 10, 5 and 0. -/
theorem claim_C8_witness :
    produce_report (fun q =>
      if q = build_query "1".toList "1".toList false [] 0 then List.replicate 100 (0 : Int)
      else if q = build_query "1".toList "1".toList false [4, 5] 0 then List.replicate 10 0
      else if q = build_query "1".toList "1".toList false [6, 7] 0 then List.replicate 5 0
      else []) "1".toList "1".toList 0 =
      [("All Cands (100)".toList, List.replicate 100 (0 : Int)),
       ("RFI/Noise (10)".toList, List.replicate 10 0),
       ("Known/Harmonic (5)".toList, List.replicate 5 0)] := by
  have h := claim_C8 (fun q =>
      if q = build_query "1".toList "1".toList false [] 0 then List.replicate 100 (0 : Int)
      else if q = build_query "1".toList "1".toList false [4, 5] 0 then List.replicate 10 0
      else if q = build_query "1".toList "1".toList false [6, 7] 0 then List.replicate 5 0
      else []) "1".toList "1".toList 0 (by decide) (by decide) (by decide) (by decide)
  rw [h.2]
  decide
